import Mathlib

/-!
Verification of the life-expectancy analysis script (`analyze.py`).

The script's core is `get_data`, which parses a CSV of death counts by age
bucket into an insertion-ordered mapping `age -> death_count`, drops ages below
`min_age`, and (in optimistic mode) repairs an inflated final "100+" bucket by
redistributing its count over synthetic ages 100..110 with a geometric decay
rate, plus the statistics step of `graph` (weighted mean, percentiles).

Embedding conventions:
- a Python dict with int keys and values is an insertion-ordered association
  list `List (Nat × Int)`; assignment `d[k] = v` replaces the value at an
  existing key in place and otherwise appends (`dictSet`);
- fallible code returns `Except Err _`, where `Err` enumerates the Python
  exceptions the script can raise;
- CSV file reading is I/O and is abstracted as the list of row field pairs
  `(row["age"], row["dx"])` that `csv.DictReader` would yield;
- Python float arithmetic on the decay rate is modelled exactly over `ℚ`;
  `int(x)` truncates toward zero, which under the surrounding `max(0, ·)`
  agrees with `Int.floor` (for `x < 0` both sides are clamped to `0`);
- the redistribution `while` loop carries an explicit fuel argument that is
  invoked with `11 = 111 - 100` steps; the loop body's own `if age > 110:
  break` test (kept verbatim) fires before the fuel can run out, so the fuel
  arm is unreachable from `repairWith`.  The fuel only makes the recursion
  structural.
-/

/-- Association-list table `age -> death_count`, the embedding of the Python
dict `death_count_by_age` (insertion-ordered). -/
abbrev Table := List (Nat × Int)

/-- Python exceptions the script can raise:
`attributeError` — `re.match` returned `None` and `.group(1)` was called;
`valueError msg` — `int()` on a non-numeric string, or the explicit
`raise ValueError("Expected the oldest age to be 100.")`;
`zeroDivisionError` — integer/float division by zero (also what
`np.average` raises when the weights sum to zero);
`indexError` — negative list index out of range. -/
inductive Err where
  | attributeError
  | valueError (msg : String)
  | zeroDivisionError
  | indexError
deriving DecidableEq, Repr

instance {ε α : Type} [DecidableEq ε] [DecidableEq α] : DecidableEq (Except ε α) := fun x y =>
  match x, y with
  | .ok a, .ok b =>
    if h : a = b then .isTrue (by rw [h]) else .isFalse (by simp [h])
  | .error a, .error b =>
    if h : a = b then .isTrue (by rw [h]) else .isFalse (by simp [h])
  | .ok _, .error _ => .isFalse (by simp)
  | .error _, .ok _ => .isFalse (by simp)

/-- Value of a digit run, used to model Python's `int` on a digit string. -/
def digitsToNat (cs : List Char) : Nat :=
  cs.foldl (fun n c => 10 * n + (c.toNat - 48)) 0

/-- Model of `re.match(r"(\d+)", s).group(1)` followed by `int(...)`
(line 24-25 of `analyze.py`): the maximal leading digit run of `s`, or `none`
when `s` has no leading digit (in which case Python raises
`AttributeError` on the `None` returned by `re.match`). -/
def parseAge (s : String) : Option Nat :=
  let ds := s.data.takeWhile Char.isDigit
  if ds = [] then none else some (digitsToNat ds)

/-- Model of `row["dx"].replace(",", "")` (line 29). -/
def stripCommas (s : String) : String :=
  ⟨s.data.filter (fun c => c ≠ ',')⟩

/-- Model of Python `int(s)` (line 30): an optional minus sign followed by a
nonempty digit run; `none` models the `ValueError` raised on other input.
(Python also tolerates surrounding whitespace, a leading `+` and `_`
separators; those lenient cases never arise in the claims.) -/
def parseCount (s : String) : Option Int :=
  match s.data with
  | '-' :: rest =>
    if rest ≠ [] ∧ rest.all Char.isDigit then some (-(digitsToNat rest : Int)) else none
  | ds =>
    if ds ≠ [] ∧ ds.all Char.isDigit then some ((digitsToNat ds : Int)) else none

/-- Python dict assignment `death_count_by_age[age] = v`: overwrite the value
at an existing key in place, otherwise append the new binding. -/
def dictSet : Table → Nat → Int → Table
  | [], k, v => [(k, v)]
  | p :: t, k, v => if p.1 = k then (k, v) :: t else p :: dictSet t k v

/-- Dict lookup with default `0`: the value bound to `k`, or `0` when absent. -/
def lookup0 : Table → Nat → Int
  | [], _ => 0
  | p :: t, k => if p.1 = k then p.2 else lookup0 t k

/-- Sum of all death counts of a table (`sum(d.values())`). -/
def sumCounts (t : Table) : Int :=
  (t.map (fun p => p.2)).sum

/-- Module-level flag of `analyze.py` line 14. -/
def OPTIMISTIC_MODE : Bool := true

/-- The CSV parsing loop of `get_data` (lines 23-31), over the row field pairs
`(row["age"], row["dx"])`, accumulating the dict built so far:
parse the leading integer of the age field (`AttributeError` if there is
none), skip the row if the age is below `minAge`, strip commas from the count
field and parse it as an integer (`ValueError` if non-numeric), and store the
count under the age. -/
def buildGo (minAge : Nat) : List (String × String) → Table → Except Err Table
  | [], acc => .ok acc
  | (ageStr, dxStr) :: rest, acc =>
    match parseAge ageStr with
    | none => .error .attributeError
    | some age =>
      if age < minAge then buildGo minAge rest acc
      else
        match parseCount (stripCommas dxStr) with
        | none => .error (.valueError ("invalid literal for int() with base 10: " ++ dxStr))
        | some d => buildGo minAge rest (dictSet acc age d)

/-- The parsed, min-age-filtered table of `get_data` before the repair step. -/
def buildTable (rows : List (String × String)) (minAge : Nat) : Except Err Table :=
  buildGo minAge rows []

/-- The redistribution `while` loop of `get_data` (lines 54-80):
while `remaining > 0`, set `thisYear = min(remaining, max(0,
int(float(prev) * rate)))`, store it at the current age, subtract it from
`remaining`, advance the age, and break once the age exceeds 110.
`int(float(prev) * rate)` is modelled as `Int.floor ((prev : ℚ) * rate)`;
under the enclosing `max 0` this agrees with Python's truncation toward zero.
The extra fuel argument only bounds the recursion structurally; called with
fuel `111 - age` (as `repairWith` does), the `110 < age + 1` break always
fires before the fuel runs out, so the `0` arm is dead code. -/
def redistributeLoop (rate : ℚ) : Nat → Nat → Int → Int → Table → Table
  | 0, _, _, _, t => t
  | fuel + 1, age, remaining, prev, t =>
    if 0 < remaining then
      let thisYear : Int := min remaining (max 0 (Int.floor ((prev : ℚ) * rate)))
      let t' := dictSet t age thisYear
      if 110 < age + 1 then t'
      else redistributeLoop rate fuel (age + 1) (remaining - thisYear) thisYear t'
    else t

/-- The decay-rate expression of `get_data` lines 50-52:
`oldest_death_data[-2][1] / oldest_death_data[-3][1]`, i.e. the
second-to-last count divided by the third-from-last count, as exact rational
division; `none` when there are fewer than three entries or the divisor is
zero (Python: `IndexError` / `ZeroDivisionError`). -/
def decayRate (t : Table) : Option ℚ :=
  match t.reverse with
  | _z :: y :: x :: _ =>
    if x.2 = 0 then none else some ((y.2 : ℚ) / (x.2 : ℚ))
  | _ => none

/-- The repair step of `get_data` (lines 33-80), parameterized by the
`OPTIMISTIC_MODE` flag.  Python takes `oldest_death_data = items[-3:]` and
indexes it at `[-1]`, `[-2]`, `[-3]`; matching on the reversed table embeds
exactly those negative-index accesses (and the `IndexError` each raises when
the table is too short).  When the final count exceeds the second-to-last
count: require the final age to be exactly 100 (`ValueError` otherwise),
compute the decay rate (zero divisor: `ZeroDivisionError`), and run the
redistribution loop starting at age 100 with `remaining` the final count and
`prev` the second-to-last count. -/
def repairWith (optimistic : Bool) (t : Table) : Except Err Table :=
  if optimistic then
    match t.reverse with
    | [] => .error .indexError
    | [_] => .error .indexError
    | z :: y :: rest =>
      if y.2 < z.2 then
        if z.1 ≠ 100 then .error (.valueError "Expected the oldest age to be 100.")
        else
          match rest with
          | [] => .error .indexError
          | x :: _ =>
            if x.2 = 0 then .error .zeroDivisionError
            else .ok (redistributeLoop ((y.2 : ℚ) / (x.2 : ℚ)) (111 - z.1) z.1 z.2 y.2 t)
      else .ok t
  else .ok t

/-- The whole of `get_data` (lines 17-82) on the parsed rows, parameterized by
the optimistic-mode flag: build the min-age-filtered table, then repair it. -/
def getDataWith (optimistic : Bool) (rows : List (String × String)) (minAge : Nat) :
    Except Err Table :=
  match buildTable rows minAge with
  | .error e => .error e
  | .ok t => repairWith optimistic t

/-- `get_data` as the script runs it, with the module-level flag. -/
def get_data (rows : List (String × String)) (minAge : Nat) : Except Err Table :=
  getDataWith OPTIMISTIC_MODE rows minAge

/-- The start of the statistics step of `graph` (lines 88-97): `n` is the sum
of the death counts and the mean is `np.average(ages, weights=death_counts)`,
which raises `ZeroDivisionError` ("Weights sum to zero") when the weights sum
to zero — the script performs no emptiness check of its own. -/
def graphMean (t : Table) : Except Err ℚ :=
  if sumCounts t = 0 then .error .zeroDivisionError
  else .ok ((t.map (fun p => (p.1 : ℚ) * (p.2 : ℚ))).sum / (sumCounts t : ℚ))

/-- The synthetic per-person sample of `graph` (lines 134-136):
each age repeated `death_count` times, shifted by `+0.5` in optimistic mode
(`np.repeat` repeats a value `max 0 count` times, rejecting nothing for zero). -/
def reconstitutedDeathAges (optimistic : Bool) (t : Table) : List ℚ :=
  t.flatMap (fun p =>
    List.replicate p.2.toNat ((p.1 : ℚ) + if optimistic then 1/2 else 0))

/-- Model of `np.percentile(sample, q)` with the default linear interpolation
(line 139): sort the sample, set `pos = q/100 * (n-1)`, and interpolate
between the floor-indexed element and its successor.  For `i + 1` past the
end the successor defaults to the element itself, so the interpolation term
vanishes (this happens only at `q = 100`). -/
def npPercentile (sample : List ℚ) (q : ℚ) : ℚ :=
  let s := sample.insertionSort (· ≤ ·)
  let pos : ℚ := q / 100 * ((s.length : ℚ) - 1)
  let i : Nat := (Int.floor pos).toNat
  s.getD i 0 + (pos - (i : ℚ)) * (s.getD (i + 1) (s.getD i 0) - s.getD i 0)

/-! ### Basic facts about the dict embedding -/

theorem mem_keys_of_dictSet (t : Table) (k : Nat) (v : Int) (a : Nat)
    (h : a ∈ (dictSet t k v).map Prod.fst) : a ∈ t.map Prod.fst ∨ a = k := by
  induction t with
  | nil =>
    right
    simpa [dictSet] using h
  | cons p t ih =>
    by_cases hpk : p.1 = k
    · simp only [dictSet, if_pos hpk, List.map_cons, List.mem_cons] at h
      rcases h with h | h
      · right; exact h
      · left; simp [h]
    · simp only [dictSet, if_neg hpk, List.map_cons, List.mem_cons] at h
      rcases h with h | h
      · left; simp [h]
      · rcases ih h with h2 | h2
        · left; simp [h2]
        · right; exact h2

theorem lookup0_dictSet_ne (t : Table) (k : Nat) (v : Int) (a : Nat) (hak : a ≠ k) :
    lookup0 (dictSet t k v) a = lookup0 t a := by
  induction t with
  | nil =>
    show lookup0 [(k, v)] a = lookup0 [] a
    simp only [lookup0]
    rw [if_neg (fun h : k = a => hak h.symm)]
  | cons p t ih =>
    by_cases hpk : p.1 = k
    · simp only [dictSet, if_pos hpk, lookup0]
      rw [if_neg (fun h : k = a => hak h.symm),
        if_neg (fun h : p.1 = a => hak (by rw [← h]; exact hpk))]
    · simp only [dictSet, if_neg hpk, lookup0, ih]

theorem sumCounts_dictSet (t : Table) (k : Nat) (v : Int) :
    sumCounts (dictSet t k v) = sumCounts t - lookup0 t k + v := by
  induction t with
  | nil => simp [dictSet, lookup0, sumCounts]
  | cons p t ih =>
    by_cases hpk : p.1 = k
    · simp only [dictSet, if_pos hpk, sumCounts, lookup0, List.map_cons, List.sum_cons]
      ring
    · simp only [dictSet, if_neg hpk, sumCounts, lookup0, List.map_cons, List.sum_cons] at *
      rw [ih]
      ring

theorem dictSet_nonneg (t : Table) (k : Nat) (v : Int)
    (hnn : ∀ p ∈ t, 0 ≤ p.2) (hv : 0 ≤ v) : ∀ p ∈ dictSet t k v, 0 ≤ p.2 := by
  induction t with
  | nil => simpa [dictSet] using hv
  | cons p t ih =>
    intro q hq
    by_cases hpk : p.1 = k
    · simp only [dictSet, if_pos hpk, List.mem_cons] at hq
      rcases hq with hq | hq
      · simpa [hq] using hv
      · exact hnn q (List.mem_cons_of_mem _ hq)
    · simp only [dictSet, if_neg hpk, List.mem_cons] at hq
      rcases hq with hq | hq
      · exact hq ▸ hnn p (List.mem_cons_self _ _)
      · exact ih (fun r hr => hnn r (List.mem_cons_of_mem _ hr)) q hq

theorem lookup0_nonneg (t : Table) (a : Nat) (hnn : ∀ p ∈ t, 0 ≤ p.2) :
    0 ≤ lookup0 t a := by
  induction t with
  | nil => simp [lookup0]
  | cons p t ih =>
    simp only [lookup0]
    split
    · exact hnn p (List.mem_cons_self _ _)
    · exact ih (fun r hr => hnn r (List.mem_cons_of_mem _ hr))

theorem lookup0_eq_of_mem_nodup (t : Table) (k : Nat) (v : Int)
    (hnd : (t.map Prod.fst).Nodup) (hm : (k, v) ∈ t) : lookup0 t k = v := by
  induction t with
  | nil => cases hm
  | cons p t ih =>
    simp only [List.map_cons, List.nodup_cons] at hnd
    rcases List.mem_cons.1 hm with hm1 | hm1
    · simp [lookup0, ← hm1]
    · have hpk : p.1 ≠ k := by
        intro hpk
        exact hnd.1 (hpk ▸ List.mem_map_of_mem Prod.fst hm1)
      simp only [lookup0, if_neg hpk]
      exact ih hnd.2 hm1

/-! ### Interaction of `dictSet` with min-age filtering -/

theorem filter_dictSet_ge (t : Table) (m k : Nat) (v : Int) (hmk : m ≤ k) :
    (dictSet t k v).filter (fun p => m ≤ p.1) =
      dictSet (t.filter (fun p => m ≤ p.1)) k v := by
  induction t with
  | nil => simp [dictSet, hmk]
  | cons p t ih =>
    by_cases hpk : p.1 = k
    · simp [dictSet, hpk, List.filter_cons, hmk]
    · by_cases hmp : m ≤ p.1
      · simp [dictSet, hpk, List.filter_cons, hmp, ih]
      · simp [dictSet, hpk, List.filter_cons, hmp, ih]

theorem filter_dictSet_lt (t : Table) (m k : Nat) (v : Int) (hkm : k < m) :
    (dictSet t k v).filter (fun p => m ≤ p.1) = t.filter (fun p => m ≤ p.1) := by
  induction t with
  | nil => simp [dictSet, Nat.not_le.2 hkm]
  | cons p t ih =>
    by_cases hpk : p.1 = k
    · simp [dictSet, hpk, List.filter_cons, Nat.not_le.2 hkm]
    · by_cases hmp : m ≤ p.1 <;>
        simp [dictSet, hpk, List.filter_cons, hmp, ih]

theorem dictSet_minb (t : Table) (k : Nat) (v : Int) {m : Nat}
    (ht : ∀ p ∈ t, m ≤ p.1) (hk : m ≤ k) : ∀ p ∈ dictSet t k v, m ≤ p.1 := by
  induction t with
  | nil => simpa [dictSet] using hk
  | cons p t ih =>
    intro q hq
    by_cases hpk : p.1 = k
    · simp only [dictSet, if_pos hpk, List.mem_cons] at hq
      rcases hq with hq | hq
      · simpa [hq] using hk
      · exact ht q (List.mem_cons_of_mem _ hq)
    · simp only [dictSet, if_neg hpk, List.mem_cons] at hq
      rcases hq with hq | hq
      · exact hq ▸ ht p (List.mem_cons_self _ _)
      · exact ih (fun r hr => ht r (List.mem_cons_of_mem _ hr)) q hq

/-! ### Facts about the parsing loop -/

theorem buildGo_min_bound (m : Nat) (rows : List (String × String)) :
    ∀ (acc t : Table), (∀ p ∈ acc, m ≤ p.1) → buildGo m rows acc = .ok t →
      ∀ p ∈ t, m ≤ p.1 := by
  induction rows with
  | nil =>
    intro acc t hacc h
    simp only [buildGo] at h
    cases h
    exact hacc
  | cons row rest ih =>
    intro acc t hacc h
    obtain ⟨ageStr, dxStr⟩ := row
    simp only [buildGo] at h
    cases hpa : parseAge ageStr with
    | none => rw [hpa] at h; cases h
    | some age =>
      rw [hpa] at h
      dsimp only at h
      by_cases hlt : age < m
      · rw [if_pos hlt] at h
        exact ih acc t hacc h
      · rw [if_neg hlt] at h
        cases hpc : parseCount (stripCommas dxStr) with
        | none => rw [hpc] at h; cases h
        | some d =>
          rw [hpc] at h
          dsimp only at h
          exact ih (dictSet acc age d) t
            (dictSet_minb acc age d hacc (Nat.not_lt.1 hlt)) h

theorem buildGo_filter (m : Nat) (rows : List (String × String)) :
    ∀ (acc u : Table), buildGo 0 rows acc = .ok u →
      buildGo m rows (acc.filter (fun p => m ≤ p.1)) =
        .ok (u.filter (fun p => m ≤ p.1)) := by
  induction rows with
  | nil =>
    intro acc u h
    simp only [buildGo] at h ⊢
    cases h
    rfl
  | cons row rest ih =>
    intro acc u h
    obtain ⟨ageStr, dxStr⟩ := row
    simp only [buildGo] at h ⊢
    cases hpa : parseAge ageStr with
    | none => rw [hpa] at h; cases h
    | some age =>
      rw [hpa] at h
      dsimp only at h ⊢
      rw [if_neg (Nat.not_lt.2 (Nat.zero_le age))] at h
      cases hpc : parseCount (stripCommas dxStr) with
      | none => rw [hpc] at h; cases h
      | some d =>
        rw [hpc] at h
        dsimp only at h ⊢
        by_cases hlt : age < m
        · rw [if_pos hlt]
          rw [← filter_dictSet_lt acc m age d hlt]
          exact ih (dictSet acc age d) u h
        · rw [if_neg hlt]
          rw [← filter_dictSet_ge acc m age d (Nat.not_lt.1 hlt)]
          exact ih (dictSet acc age d) u h

/-! ### Facts about the redistribution loop -/

theorem redistributeLoop_nonpos (rate : ℚ) (fuel age : Nat) (rem prev : Int) (t : Table)
    (h : ¬ 0 < rem) : redistributeLoop rate fuel age rem prev t = t := by
  cases fuel <;> simp [redistributeLoop, h]

theorem redistributeLoop_keys (rate : ℚ) (fuel : Nat) :
    ∀ (age : Nat) (rem prev : Int) (t : Table), age ≤ 110 →
      ∀ a ∈ (redistributeLoop rate fuel age rem prev t).map Prod.fst,
        a ∈ t.map Prod.fst ∨ (age ≤ a ∧ a ≤ 110) := by
  induction fuel with
  | zero =>
    intro age rem prev t _ a ha
    left
    simpa [redistributeLoop] using ha
  | succ fuel ih =>
    intro age rem prev t hage a ha
    by_cases hrem : 0 < rem
    · simp only [redistributeLoop, if_pos hrem] at ha
      by_cases hbr : 110 < age + 1
      · rw [if_pos hbr] at ha
        rcases mem_keys_of_dictSet t age _ a ha with h | h
        · exact Or.inl h
        · exact Or.inr ⟨h ▸ le_refl _, h ▸ hage⟩
      · rw [if_neg hbr] at ha
        rcases ih (age + 1) _ _ _ (by omega) a ha with h | h
        · rcases mem_keys_of_dictSet t age _ a h with h2 | h2
          · exact Or.inl h2
          · exact Or.inr ⟨h2 ▸ le_refl _, h2 ▸ hage⟩
        · exact Or.inr ⟨by omega, h.2⟩
    · rw [redistributeLoop_nonpos rate _ _ _ _ _ hrem] at ha
      exact Or.inl ha

theorem redistributeLoop_lookup0 (rate : ℚ) (fuel : Nat) :
    ∀ (age : Nat) (rem prev : Int) (t : Table) (a : Nat), age ≤ 110 →
      (a < age ∨ 110 < a) →
      lookup0 (redistributeLoop rate fuel age rem prev t) a = lookup0 t a := by
  induction fuel with
  | zero =>
    intro age rem prev t a _ _
    simp [redistributeLoop]
  | succ fuel ih =>
    intro age rem prev t a hage hout
    have hne : a ≠ age := by omega
    by_cases hrem : 0 < rem
    · simp only [redistributeLoop, if_pos hrem]
      by_cases hbr : 110 < age + 1
      · rw [if_pos hbr]
        exact lookup0_dictSet_ne t age _ a hne
      · rw [if_neg hbr]
        rw [ih (age + 1) _ _ _ a (by omega) (by omega)]
        exact lookup0_dictSet_ne t age _ a hne
    · rw [redistributeLoop_nonpos rate _ _ _ _ _ hrem]

theorem redistributeLoop_sum (rate : ℚ) (fuel : Nat) :
    ∀ (age : Nat) (rem prev : Int) (t : Table),
      (∀ p ∈ t, 0 ≤ p.2) → 0 < rem → age ≤ 110 → 110 < age + fuel →
      sumCounts (redistributeLoop rate fuel age rem prev t) ≤
        sumCounts t - lookup0 t age + rem := by
  induction fuel with
  | zero =>
    intro age rem prev t _ _ hage hf
    exact absurd hf (by omega)
  | succ fuel ih =>
    intro age rem prev t hnn hrem hage hf
    have hth0 : (0 : Int) ≤ min rem (max 0 (Int.floor ((prev : ℚ) * rate))) :=
      le_min (le_of_lt hrem) (le_max_left _ _)
    have hthr : min rem (max 0 (Int.floor ((prev : ℚ) * rate))) ≤ rem := min_le_left _ _
    have hsum : sumCounts (dictSet t age (min rem (max 0 (Int.floor ((prev : ℚ) * rate))))) =
        sumCounts t - lookup0 t age + min rem (max 0 (Int.floor ((prev : ℚ) * rate))) :=
      sumCounts_dictSet t age _
    have hnn' : ∀ p ∈ dictSet t age (min rem (max 0 (Int.floor ((prev : ℚ) * rate)))), 0 ≤ p.2 :=
      dictSet_nonneg t age _ hnn hth0
    simp only [redistributeLoop, if_pos hrem]
    by_cases hbr : 110 < age + 1
    · rw [if_pos hbr, hsum]
      linarith
    · rw [if_neg hbr]
      by_cases hrem' : 0 < rem - min rem (max 0 (Int.floor ((prev : ℚ) * rate)))
      · have hrec := ih (age + 1) (rem - min rem (max 0 (Int.floor ((prev : ℚ) * rate))))
          (min rem (max 0 (Int.floor ((prev : ℚ) * rate))))
          (dictSet t age (min rem (max 0 (Int.floor ((prev : ℚ) * rate)))))
          hnn' hrem' (by omega) (by omega)
        have hlk := lookup0_nonneg
          (dictSet t age (min rem (max 0 (Int.floor ((prev : ℚ) * rate))))) (age + 1) hnn'
        rw [hsum] at hrec
        linarith
      · rw [redistributeLoop_nonpos rate _ _ _ _ _ hrem', hsum]
        linarith

/-! ### Case analysis of the repair step -/

theorem repair_ok_cases (t tr : Table) (h : repairWith true t = .ok tr) :
    tr = t ∨ ∃ z y x rest, t.reverse = z :: y :: x :: rest ∧ y.2 < z.2 ∧ z.1 = 100 ∧
      x.2 ≠ 0 ∧
      tr = redistributeLoop ((y.2 : ℚ) / (x.2 : ℚ)) (111 - z.1) z.1 z.2 y.2 t := by
  rcases hrev : t.reverse with _ | ⟨z, _ | ⟨y, rest⟩⟩
  · simp only [repairWith, hrev, if_true] at h
    exact Except.noConfusion h
  · simp only [repairWith, hrev, if_true] at h
    exact Except.noConfusion h
  · simp only [repairWith, hrev, if_true] at h
    by_cases htrig : y.2 < z.2
    · rw [if_pos htrig] at h
      by_cases hage : z.1 ≠ 100
      · rw [if_pos hage] at h
        exact Except.noConfusion h
      · rw [if_neg hage] at h
        push_neg at hage
        cases rest with
        | nil =>
          dsimp only at h
          exact Except.noConfusion h
        | cons x rest2 =>
          dsimp only at h
          by_cases hx : x.2 = 0
          · rw [if_pos hx] at h
            exact Except.noConfusion h
          · rw [if_neg hx] at h
            right
            exact ⟨z, y, x, rest2, rfl, htrig, hage, hx, (Except.ok.inj h).symm⟩
    · rw [if_neg htrig] at h
      left
      exact (Except.ok.inj h).symm

/-! ### Monotonicity of linear-interpolation percentiles -/

theorem sorted_getD_le (s : List ℚ) (hs : s.Sorted (fun a b => a ≤ b)) (i j : Nat)
    (hij : i ≤ j) (hj : j < s.length) : s.getD i 0 ≤ s.getD j 0 := by
  have hi : i < s.length := lt_of_le_of_lt hij hj
  rw [List.getD_eq_getElem s 0 hi, List.getD_eq_getElem s 0 hj]
  rcases Nat.eq_or_lt_of_le hij with heq | hlt
  · subst heq
    exact le_rfl
  · have h := @List.Sorted.rel_get_of_lt ℚ (fun a b => a ≤ b) s hs ⟨i, hi⟩ ⟨j, hj⟩ hlt
    simpa [List.get_eq_getElem] using h

/-- Linear interpolation of a sample at a fractional position, the common core
of `npPercentile` after sorting. -/
def interpAt (s : List ℚ) (pos : ℚ) : ℚ :=
  let i : Nat := (Int.floor pos).toNat
  s.getD i 0 + (pos - (i : ℚ)) * (s.getD (i + 1) (s.getD i 0) - s.getD i 0)

theorem interpAt_delta_nonneg (s : List ℚ) (hs : s.Sorted (fun a b => a ≤ b)) (k : Nat) :
    0 ≤ s.getD (k + 1) (s.getD k 0) - s.getD k 0 := by
  by_cases hk1 : k + 1 < s.length
  · have h := sorted_getD_le s hs k (k + 1) (Nat.le_succ k) hk1
    rw [List.getD_eq_getElem s 0 hk1] at h
    rw [List.getD_eq_getElem s _ hk1]
    linarith
  · rw [List.getD_eq_default s _ (Nat.not_lt.1 hk1)]
    simp

theorem interpAt_mono (s : List ℚ) (hs : s.Sorted (fun a b => a ≤ b)) (a b : ℚ)
    (ha : 0 ≤ a) (hab : a ≤ b) (hb : b ≤ (s.length : ℚ) - 1) :
    interpAt s a ≤ interpAt s b := by
  simp only [interpAt]
  set i := (Int.floor a).toNat with hi_def
  set j := (Int.floor b).toNat with hj_def
  have hfa0 : (0 : Int) ≤ Int.floor a := Int.le_floor.2 (by exact_mod_cast ha)
  have hfb0 : (0 : Int) ≤ Int.floor b := le_trans hfa0 (Int.floor_le_floor hab)
  have hica : ((i : Int) : ℚ) = ((Int.floor a : Int) : ℚ) := by
    rw [hi_def, Int.toNat_of_nonneg hfa0]
  have hicb : ((j : Int) : ℚ) = ((Int.floor b : Int) : ℚ) := by
    rw [hj_def, Int.toNat_of_nonneg hfb0]
  have hia : ((i : ℚ)) ≤ a := by
    have h1 : ((Int.floor a : Int) : ℚ) ≤ a := Int.floor_le a
    push_cast at hica
    linarith
  have hai : a < ((i : ℚ)) + 1 := by
    have h1 : a < ((Int.floor a : Int) : ℚ) + 1 := Int.lt_floor_add_one a
    push_cast at hica
    linarith
  have hjb : ((j : ℚ)) ≤ b := by
    have h1 : ((Int.floor b : Int) : ℚ) ≤ b := Int.floor_le b
    push_cast at hicb
    linarith
  have hij : i ≤ j := by
    rw [hi_def, hj_def]
    exact Int.toNat_le_toNat (Int.floor_le_floor hab)
  have hjlen : j < s.length := by
    have h1 : ((j : ℚ)) < (s.length : ℚ) := by linarith
    exact_mod_cast h1
  have hdi := interpAt_delta_nonneg s hs i
  have hdj := interpAt_delta_nonneg s hs j
  rcases Nat.eq_or_lt_of_le hij with heq | hlt
  · rw [← heq]
    exact add_le_add_left (mul_le_mul_of_nonneg_right (by linarith) hdi) _
  · have hi1len : i + 1 < s.length := lt_of_le_of_lt hlt hjlen
    have e1 : s.getD i 0 + (a - (i : ℚ)) * (s.getD (i + 1) (s.getD i 0) - s.getD i 0) ≤
        s.getD (i + 1) (s.getD i 0) := by
      nlinarith
    have e2 : s.getD (i + 1) (s.getD i 0) ≤ s.getD j 0 := by
      rw [List.getD_eq_getElem s _ hi1len]
      have h := sorted_getD_le s hs (i + 1) j hlt hjlen
      rwa [List.getD_eq_getElem s 0 hi1len] at h
    have e3 : s.getD j 0 ≤
        s.getD j 0 + (b - (j : ℚ)) * (s.getD (j + 1) (s.getD j 0) - s.getD j 0) := by
      nlinarith
    linarith

/-! ### Claim theorems -/

/-- C1: when the repair step succeeds, every entry of the resulting table
either sits at a key the input table already had, or is a synthetic entry
written by the redistribution loop, whose age lies in `100..110`: the loop
starts at age 100, advances by one per iteration and stops as soon as the
age exceeds 110 (or the remaining count is exhausted). -/
theorem repair_synthetic_entry_ages (t tr : Table) (h : repairWith true t = .ok tr) :
    ∀ p ∈ tr, p.1 ∈ t.map Prod.fst ∨ (100 ≤ p.1 ∧ p.1 ≤ 110) := by
  intro p hp
  rcases repair_ok_cases t tr h with rfl | ⟨z, y, x, rest, hrev, htrig, hage, hx, htr⟩
  · exact Or.inl (List.mem_map_of_mem Prod.fst hp)
  · subst htr
    have hkey := List.mem_map_of_mem Prod.fst hp
    rcases redistributeLoop_keys ((y.2 : ℚ) / (x.2 : ℚ)) (111 - z.1) z.1 z.2 y.2 t
        (by omega) p.1 hkey with h1 | h1
    · exact Or.inl h1
    · obtain ⟨h1a, h1b⟩ := h1
      exact Or.inr ⟨by omega, h1b⟩

/-- C1 witness: a concrete run of the repair step (no trigger, so the table
passes through unchanged) with a concrete entry. -/
theorem repair_synthetic_entry_ages_witness :
    ((100 : Nat), (3 : Int)).1 ∈ ([(99, 5), (100, 3)] : Table).map Prod.fst ∨
      (100 ≤ ((100 : Nat), (3 : Int)).1 ∧ ((100 : Nat), (3 : Int)).1 ≤ 110) :=
  repair_synthetic_entry_ages [(99, 5), (100, 3)] [(99, 5), (100, 3)] (by decide)
    (100, 3) (by decide)

/-- C2 counterexample: the claim says the decay rate is
`count[age-2] / count[age-1]`, i.e. third-from-last over second-to-last; for
the table `{98: 4, 99: 2, 100: 12}` that would be `4 / 2`, but the code
computes `oldest[-2][1] / oldest[-3][1] = 2 / 4`. -/
theorem decay_rate_claim_counterexample :
    decayRate [(98, 4), (99, 2), (100, 12)] ≠ some ((4 : ℚ) / 2) := by
  rw [show decayRate [(98, 4), (99, 2), (100, 12)] =
      some ((((2 : Int)) : ℚ) / (((4 : Int)) : ℚ)) from rfl]
  simp only [ne_eq, Option.some.injEq]
  push_cast
  norm_num

/-- C2 amended: when the repair heuristic is triggered (and its preconditions
hold) the decay rate it uses is the second-to-last bucket's count divided by
the third-from-last bucket's count (for oldest age 100: count at age 99 over
count at age 98), and the repair runs the redistribution loop with exactly
that rate. -/
theorem decay_rate_is_last_over_third_last (t : Table) (z y x : Nat × Int) (rest : Table)
    (hrev : t.reverse = z :: y :: x :: rest) (htrig : y.2 < z.2) (hage : z.1 = 100)
    (hx : x.2 ≠ 0) :
    decayRate t = some ((y.2 : ℚ) / (x.2 : ℚ)) ∧
      repairWith true t = .ok
        (redistributeLoop ((y.2 : ℚ) / (x.2 : ℚ)) (111 - z.1) z.1 z.2 y.2 t) := by
  constructor
  · simp only [decayRate, hrev, if_neg hx]
  · simp only [repairWith, hrev, if_true, if_pos htrig]
    rw [if_neg (by simp [hage])]
    rw [if_neg hx]

/-- C2 amended witness: the triggered table `{98: 4, 99: 2, 100: 12}` uses
rate `2 / 4`. -/
theorem decay_rate_is_last_over_third_last_witness :
    decayRate [(98, 4), (99, 2), (100, 12)] = some (((2 : Int) : ℚ) / ((4 : Int) : ℚ)) ∧
      repairWith true [(98, 4), (99, 2), (100, 12)] = .ok
        (redistributeLoop (((2 : Int) : ℚ) / ((4 : Int) : ℚ)) (111 - 100) 100 12 2
          [(98, 4), (99, 2), (100, 12)]) := by
  exact decay_rate_is_last_over_third_last [(98, 4), (99, 2), (100, 12)]
    (100, 12) (99, 2) (98, 4) [] (by decide) (by decide) rfl (by decide)

/-- C3: for a valid death table (unique ages, non-negative counts) on which
the repair step succeeds, the total death count of the repaired table is at
most that of the input table: redistribution never creates mass, it can only
discard the remainder left when the age-110 cap is hit. -/
theorem repair_sum_le (t tr : Table) (hnd : (t.map Prod.fst).Nodup)
    (hnn : ∀ p ∈ t, 0 ≤ p.2) (h : repairWith true t = .ok tr) :
    sumCounts tr ≤ sumCounts t := by
  rcases repair_ok_cases t tr h with rfl | ⟨z, y, x, rest, hrev, htrig, hage, hx, htr⟩
  · exact le_rfl
  · subst htr
    have hz : z ∈ t := by
      have hzr : z ∈ t.reverse := by rw [hrev]; exact List.mem_cons_self _ _
      exact List.mem_reverse.1 hzr
    have hy : y ∈ t := by
      have hyr : y ∈ t.reverse := by
        rw [hrev]
        exact List.mem_cons_of_mem _ (List.mem_cons_self _ _)
      exact List.mem_reverse.1 hyr
    have hrem : 0 < z.2 := lt_of_le_of_lt (hnn y hy) htrig
    have hlk : lookup0 t z.1 = z.2 := lookup0_eq_of_mem_nodup t z.1 z.2 hnd hz
    have hmain := redistributeLoop_sum ((y.2 : ℚ) / (x.2 : ℚ)) (111 - z.1) z.1 z.2 y.2 t
      hnn hrem (by omega) (by omega)
    rw [hlk] at hmain
    linarith

/-- C3 witness: a valid three-bucket table (no trigger, so repair returns it
unchanged) has a total no larger than itself. -/
theorem repair_sum_le_witness :
    sumCounts [(98, 9), (99, 5), (100, 3)] ≤ sumCounts [(98, 9), (99, 5), (100, 3)] :=
  repair_sum_le [(98, 9), (99, 5), (100, 3)] [(98, 9), (99, 5), (100, 3)]
    (by decide) (by decide) (by decide)

/-- C4: if the last bucket's count does not exceed the second-to-last
bucket's count, the repair step returns the table exactly unchanged; in
particular re-running the repair on an already-repaired table whose final
bucket no longer exceeds the second-to-last is a no-op. -/
theorem repair_no_trigger_noop (t : Table) (z y : Nat × Int) (rest : Table)
    (hrev : t.reverse = z :: y :: rest) (hle : z.2 ≤ y.2) :
    repairWith true t = .ok t := by
  simp only [repairWith, hrev, if_true]
  rw [if_neg (not_lt.2 hle)]

/-- C4 witness: a concrete non-inflated table is returned unchanged. -/
theorem repair_no_trigger_noop_witness :
    repairWith true [(98, 9), (99, 5), (100, 3)] = .ok [(98, 9), (99, 5), (100, 3)] :=
  repair_no_trigger_noop [(98, 9), (99, 5), (100, 3)] (100, 3) (99, 5) [(98, 9)]
    (by decide) (by decide)

/-- C5 counterexample: for the triggered table `{98: 0, 99: 5, 100: 12}` the
decay-rate divisor is `0`; the claim says load must fail with an error naming
the violated assumption rather than a raw arithmetic exception, but the code
propagates a raw `ZeroDivisionError` (the only message-carrying error the
script can raise is a `ValueError`, and none is raised here). -/
theorem zero_divisor_raw_error_counterexample :
    repairWith true [(98, 0), (99, 5), (100, 12)] = .error .zeroDivisionError ∧
      ¬ ∃ msg, repairWith true [(98, 0), (99, 5), (100, 12)] = .error (.valueError msg) := by
  constructor
  · decide
  · rintro ⟨msg, hm⟩
    rw [show repairWith true [(98, 0), (99, 5), (100, 12)] = .error .zeroDivisionError
      from by decide] at hm
    exact absurd (Except.error.inj hm) (by simp)

/-- C5 amended: when the repair heuristic is triggered, an oldest age other
than 100 aborts with the `ValueError` naming that assumption, while a zero
decay-rate divisor propagates a raw `ZeroDivisionError` (no assumption-naming
error is raised in that case). -/
theorem repair_precondition_errors (t : Table) (z y x : Nat × Int) (rest : Table)
    (hrev : t.reverse = z :: y :: x :: rest) (htrig : y.2 < z.2) :
    (z.1 ≠ 100 → repairWith true t = .error (.valueError "Expected the oldest age to be 100.")) ∧
      (z.1 = 100 → x.2 = 0 → repairWith true t = .error .zeroDivisionError) := by
  constructor
  · intro hage
    simp only [repairWith, hrev, if_true, if_pos htrig, if_pos hage]
  · intro hage hx
    simp only [repairWith, hrev, if_true, if_pos htrig]
    rw [if_neg (by simp [hage])]
    rw [if_pos hx]

/-- C5 amended witness: the zero-divisor case at a concrete triggered table. -/
theorem repair_precondition_errors_witness :
    repairWith true [(98, 0), (99, 5), (100, 12)] = .error .zeroDivisionError :=
  (repair_precondition_errors [(98, 0), (99, 5), (100, 12)] (100, 12) (99, 5) (98, 0) []
    (by decide) (by decide)).2 rfl rfl

/-- C6 counterexample: the claim says a table with fewer than three entries
after filtering makes load fail with an `InsufficientDataError`; but on a
two-row input whose final count does not exceed the second-to-last count,
`get_data` returns the two-entry table (it does not abort at all, and the
script defines no such error class). -/
theorem insufficient_data_claim_counterexample :
    get_data [("99", "5"), ("100", "3")] 0 = .ok [(99, 5), (100, 3)] := by
  decide

/-- C6 amended: a table with fewer than three entries never produces a
dedicated insufficient-data error: with zero or one entries the repair step
fails with a raw `IndexError`; with two entries it returns the table
unchanged when the trigger does not fire, fails with the age-assumption
`ValueError` when the trigger fires at an oldest age other than 100, and
fails with a raw `IndexError` (from `oldest_death_data[-3]`) when the
trigger fires at oldest age 100. -/
theorem repair_small_table (t : Table) (hlen : t.length < 3) :
    (t.length ≤ 1 → repairWith true t = .error .indexError) ∧
      (∀ z y, t.reverse = [z, y] →
        (z.2 ≤ y.2 → repairWith true t = .ok t) ∧
          (y.2 < z.2 → z.1 ≠ 100 →
            repairWith true t = .error (.valueError "Expected the oldest age to be 100.")) ∧
          (y.2 < z.2 → z.1 = 100 → repairWith true t = .error .indexError)) := by
  constructor
  · intro h1
    rcases t with _ | ⟨a, _ | ⟨b, rest⟩⟩
    · rfl
    · rfl
    · simp at h1
  · intro z y hrev
    refine ⟨?_, ?_, ?_⟩
    · intro hle
      simp only [repairWith, hrev, if_true]
      rw [if_neg (not_lt.2 hle)]
    · intro htrig hage
      simp only [repairWith, hrev, if_true, if_pos htrig, if_pos hage]
    · intro htrig hage
      simp only [repairWith, hrev, if_true, if_pos htrig]
      rw [if_neg (by simp [hage])]

/-- C6 amended witness: a one-entry table makes the repair step fail with an
`IndexError`. -/
theorem repair_small_table_witness :
    repairWith true [(100, 7)] = .error .indexError :=
  (repair_small_table [(100, 7)] (by decide)).1 (by decide)

/-- C7 counterexample: on an all-zero table (which load returns unchanged,
since the trigger does not fire), the statistics step reaches the weighted
average and fails there with numpy's raw `ZeroDivisionError` — the claim's
dedicated `EmptyDatasetError` before the average does not exist in the
script. -/
theorem empty_weights_raw_error_counterexample :
    get_data [("98", "0"), ("99", "0"), ("100", "0")] 0 = .ok [(98, 0), (99, 0), (100, 0)] ∧
      graphMean [(98, 0), (99, 0), (100, 0)] = .error .zeroDivisionError := by
  constructor
  · decide
  · decide

/-- C7 amended: whenever the death counts sum to zero, the statistics step
fails with the raw `ZeroDivisionError` coming from `np.average`; the script
performs no emptiness check of its own. -/
theorem graphMean_zero_weights (t : Table) (h : sumCounts t = 0) :
    graphMean t = .error .zeroDivisionError := by
  simp [graphMean, h]

/-- C7 amended witness: the empty table. -/
theorem graphMean_zero_weights_witness : graphMean [] = .error .zeroDivisionError :=
  graphMean_zero_weights [] rfl

/-- C8: whenever load succeeds (and the unfiltered parse also succeeds), the
returned table contains no entry below `minAge`, and at every age outside the
repair range `100..110` it agrees with the unfiltered parsed table restricted
to ages at least `minAge`. -/
theorem getData_min_age_filter (rows : List (String × String)) (minAge : Nat) (t u : Table)
    (hg : getDataWith true rows minAge = .ok t) (hu : buildTable rows 0 = .ok u) :
    (∀ p ∈ t, minAge ≤ p.1) ∧
      (∀ a : Nat, a < 100 ∨ 110 < a →
        lookup0 t a = lookup0 (u.filter (fun p => minAge ≤ p.1)) a) := by
  unfold getDataWith at hg
  cases hb : buildTable rows minAge with
  | error e =>
    rw [hb] at hg
    exact Except.noConfusion hg
  | ok tb =>
    rw [hb] at hg
    dsimp only at hg
    have hfilter : tb = u.filter (fun p => minAge ≤ p.1) := by
      have h2 := buildGo_filter minAge rows [] u hu
      rw [show (([] : Table).filter (fun p => minAge ≤ p.1)) = ([] : Table) from rfl] at h2
      have h3 : buildTable rows minAge = .ok (u.filter (fun p => minAge ≤ p.1)) := h2
      rw [hb] at h3
      exact Except.ok.inj h3
    have hbound : ∀ p ∈ tb, minAge ≤ p.1 :=
      buildGo_min_bound minAge rows [] tb (by simp) hb
    constructor
    · intro p hp
      rcases repair_ok_cases tb t hg with rfl | ⟨z, y, x, rest, hrev, htrig, hage, hx, htr⟩
      · exact hbound p hp
      · subst htr
        have hkey := List.mem_map_of_mem Prod.fst hp
        rcases redistributeLoop_keys ((y.2 : ℚ) / (x.2 : ℚ)) (111 - z.1) z.1 z.2 y.2 tb
            (by omega) p.1 hkey with h1 | h1
        · obtain ⟨q, hq, hq1⟩ := List.mem_map.1 h1
          exact hq1 ▸ hbound q hq
        · obtain ⟨h1a, h1b⟩ := h1
          have hz : z ∈ tb := List.mem_reverse.1 (by rw [hrev]; exact List.mem_cons_self _ _)
          have hzb : minAge ≤ z.1 := hbound z hz
          omega
    · intro a hout
      rcases repair_ok_cases tb t hg with rfl | ⟨z, y, x, rest, hrev, htrig, hage, hx, htr⟩
      · rw [hfilter]
      · subst htr
        have hout' : a < z.1 ∨ 110 < a := by
          rcases hout with h1 | h1
          · exact Or.inl (by omega)
          · exact Or.inr h1
        rw [redistributeLoop_lookup0 ((y.2 : ℚ) / (x.2 : ℚ)) (111 - z.1) z.1 z.2 y.2 tb a
          (by omega) hout', hfilter]

/-- C8 witness: a concrete run with `minAge = 50` dropping the age-10 row;
the returned table has its entries at ages at least 50, and at age 10 it
agrees with the filtered unfiltered table (both have no entry). -/
theorem getData_min_age_filter_witness :
    (50 : Nat) ≤ ((99 : Nat), (5 : Int)).1 ∧
      lookup0 [(99, 5), (100, 3)] 10 =
        lookup0 (([(10, 5), (99, 5), (100, 3)] : Table).filter (fun p => 50 ≤ p.1)) 10 := by
  have h := getData_min_age_filter [("10", "5"), ("99", "5"), ("100", "3")] 50
    [(99, 5), (100, 3)] [(10, 5), (99, 5), (100, 3)] (by decide) (by decide)
  exact ⟨h.1 (99, 5) (by decide), h.2 10 (Or.inl (by decide))⟩

/-- C9: percentile computation (linear interpolation on the sorted synthetic
sample, as `np.percentile` does) is monotone in the requested percentile:
for percentiles `p1 < p2` in `[0, 100]` and a non-empty sample, the value at
`p1` is at most the value at `p2`. -/
theorem npPercentile_mono (xs : List ℚ) (p1 p2 : ℚ) (hne : xs ≠ []) (h0 : 0 ≤ p1)
    (h12 : p1 < p2) (h100 : p2 ≤ 100) : npPercentile xs p1 ≤ npPercentile xs p2 := by
  have hs := List.sorted_insertionSort (fun a b : ℚ => a ≤ b) xs
  have hlen : 1 ≤ (xs.insertionSort (fun a b : ℚ => a ≤ b)).length := by
    rw [List.length_insertionSort]
    exact List.length_pos.2 hne
  have hc0 : (0 : ℚ) ≤ ((xs.insertionSort (fun a b : ℚ => a ≤ b)).length : ℚ) - 1 := by
    have h1 : (1 : ℚ) ≤ ((xs.insertionSort (fun a b : ℚ => a ≤ b)).length : ℚ) := by
      exact_mod_cast hlen
    linarith
  show interpAt (xs.insertionSort (fun a b : ℚ => a ≤ b))
      (p1 / 100 * (((xs.insertionSort (fun a b : ℚ => a ≤ b)).length : ℚ) - 1)) ≤
    interpAt (xs.insertionSort (fun a b : ℚ => a ≤ b))
      (p2 / 100 * (((xs.insertionSort (fun a b : ℚ => a ≤ b)).length : ℚ) - 1))
  apply interpAt_mono _ hs
  · exact mul_nonneg (div_nonneg h0 (by norm_num)) hc0
  · exact mul_le_mul_of_nonneg_right (by linarith) hc0
  · calc p2 / 100 * (((xs.insertionSort (fun a b : ℚ => a ≤ b)).length : ℚ) - 1) ≤
        1 * (((xs.insertionSort (fun a b : ℚ => a ≤ b)).length : ℚ) - 1) :=
          mul_le_mul_of_nonneg_right (by linarith) hc0
      _ = ((xs.insertionSort (fun a b : ℚ => a ≤ b)).length : ℚ) - 1 := one_mul _

/-- C9 witness: on the one-point sample `[70]`, the 10th percentile is at
most the 90th. -/
theorem npPercentile_mono_witness :
    npPercentile [(70 : ℚ)] 10 ≤ npPercentile [(70 : ℚ)] 90 :=
  npPercentile_mono [70] 10 90 (by simp) (by norm_num) (by norm_num) (by norm_num)

/-- C10: the module-level flag is `true` in the script, and with the flag
`false` the whole of load returns the parsed, min-age-filtered table
unchanged for every input — the tail-repair heuristic (and every error it
can raise) is gated behind the flag. -/
theorem optimistic_flag_gates_repair :
    OPTIMISTIC_MODE = true ∧
      ∀ (rows : List (String × String)) (minAge : Nat),
        getDataWith false rows minAge = buildTable rows minAge := by
  refine ⟨rfl, ?_⟩
  intro rows minAge
  unfold getDataWith
  cases buildTable rows minAge <;> rfl
